import Mathlib

/-! Soup recipe catalog (`recipe.js`): embedding and checked properties.

A shallow embedding of the pure parts of `recipe.js`: the quote-aware line
parser `parseCSVLine`, the catalog builder `loadRecipes` (with the module-level
array `recipes` passed explicitly), the duration formatter `formatCookTime`
and the two text segmentations done by `openRecipeModal`.

JavaScript strings are modelled as lists of characters.  Every character the
code tests (the quote, the comma, the newline, the period, the closing
parenthesis, the ASCII digits and the white space removed by `trim`) lies in
the Basic Multilingual Plane, so working with characters rather than UTF-16
code units does not change any of the functions below.

JavaScript numbers are doubles.  The durations are modelled as `NaN`, the
infinities and the doubles with an integer value, with the rounding done by
`parseInt`, by the division in `Math.floor(minutes / 60)` and by the conversion
to a string.
-/

namespace EhCookWhat

/-- A JavaScript string, as the list of its characters. -/
abbrev Str := List Char

/-! ## Built-in string operations used by the code -/

/-- White space and line terminators, the characters removed by
`String.prototype.trim` and matched by the regular-expression class `\s`. -/
def isJSWhitespace (c : Char) : Bool :=
  c.toNat ∈ [0x09, 0x0A, 0x0B, 0x0C, 0x0D, 0x20, 0xA0, 0x1680,
    0x2000, 0x2001, 0x2002, 0x2003, 0x2004, 0x2005, 0x2006, 0x2007, 0x2008, 0x2009, 0x200A,
    0x2028, 0x2029, 0x202F, 0x205F, 0x3000, 0xFEFF]

/-- `String.prototype.trimStart`. -/
def trimStart (s : Str) : Str := s.dropWhile isJSWhitespace

/-- `String.prototype.trimEnd`. -/
def trimEnd (s : Str) : Str := s.rdropWhile isJSWhitespace

/-- `String.prototype.trim`. -/
def trim (s : Str) : Str := trimEnd (trimStart s)

/-- `String.prototype.split` with a one-character separator: the pieces between
the occurrences of `sep`; the empty string gives one empty piece. -/
def split (sep : Char) : Str → List Str
  | [] => [[]]
  | c :: cs =>
    if c = sep then [] :: split sep cs
    else (c :: (split sep cs).headD []) :: (split sep cs).tail

/-! ## `parseCSVLine` -/

/-- The three loop variables of `parseCSVLine`. -/
structure ParseState where
  result : List Str
  current : Str
  inQuotes : Bool
deriving DecidableEq, Repr

/-- One iteration of the `for` loop of `parseCSVLine` on the character `char`. -/
def parseStep (st : ParseState) (char : Char) : ParseState :=
  if char = '"' then
    { st with inQuotes := !st.inQuotes }
  else if char = ',' ∧ st.inQuotes = false then
    { st with result := st.result ++ [trim st.current], current := [] }
  else
    { st with current := st.current ++ [char] }

/-- The loop of `parseCSVLine` run over `line` from the state `st`. -/
def parseLoop (st : ParseState) (line : Str) : ParseState :=
  line.foldl parseStep st

/-- The statements after the loop: push the trimmed last field and return. -/
def parseFinish (st : ParseState) : List Str :=
  st.result ++ [trim st.current]

/-- `parseCSVLine(line)`. -/
def parseCSVLine (line : Str) : List Str :=
  parseFinish (parseLoop ⟨[], [], false⟩ line)

/-- The number of field separators of a line, in the words of the specification:
the positions that hold a `,` and are preceded by an even number of `"`. -/
def separatorCount (line : Str) : Nat :=
  ((List.range line.length).filter
    (fun i => decide (line.getD i ' ' = ',') && decide ((line.take i).count '"' % 2 = 0))).length

/-- `Array.prototype.join` with the newline as separator. -/
def joinLines : List Str → Str
  | [] => []
  | [line] => line
  | line :: rest => line ++ '\n' :: joinLines rest

/-- A field wrapped in double quotes. -/
def quoteField (field : Str) : Str := '"' :: field ++ ['"']

/-- `Array.prototype.join` with the comma as separator. -/
def joinComma : List Str → Str
  | [] => []
  | [field] => field
  | field :: rest => field ++ ',' :: joinComma rest

/-! ## Numbers -/

/-- The values a duration can take.  A JavaScript number is an IEEE 754 double;
the numbers met here are `NaN`, the two infinities and the finite doubles with
an integer value, `int i` standing for the double whose value is the integer
`i` (the two zeros are not told apart: the code prints and compares them
alike). -/
inductive JSNum where
  | nan
  | int (i : Int)
  | inf (negative : Bool)
deriving DecidableEq, Repr

/-- The auxiliary recursion of `log2`, with a bound on the number of steps. -/
def log2Aux : Nat → Nat → Nat
  | 0, _ => 0
  | fuel + 1, n => if n < 2 then 0 else log2Aux fuel (n / 2) + 1

/-- The binary exponent of a positive integer: `2 ^ log2 n ≤ n < 2 ^ (log2 n + 1)`. -/
def log2 (n : Nat) : Nat := log2Aux n n

/-- The integer nearest to `a / b`, a tie going to the even one. -/
def roundHalfEven (a b : Nat) : Nat :=
  if 2 * (a % b) > b ∨ (2 * (a % b) = b ∧ (a / b) % 2 = 1) then a / b + 1 else a / b

/-- The double nearest to the non-negative integer `v` (53 significant bits,
ties to even), or `none` when the rounded value is beyond the largest double.
Integers up to `2 ^ 53` are doubles themselves. -/
def roundToDouble (v : Nat) : Option Nat :=
  if v ≤ 2 ^ 53 then some v
  else
    let e := log2 v - 52
    let m := roundHalfEven v (2 ^ e)
    if 1024 ≤ log2 (m * 2 ^ e) then none else some (m * 2 ^ e)

/-- The number value of the integer with the given sign and magnitude. -/
def JSNum.ofSignMagnitude (negative : Bool) (v : Nat) : JSNum :=
  match roundToDouble v with
  | none => JSNum.inf negative
  | some d => JSNum.int (if negative then -(d : Int) else d)

/-- The value of the character `c` as a digit in the given radix, if it is one. -/
def digitValue (radix : Nat) (c : Char) : Option Nat :=
  let v : Option Nat :=
    if '0' ≤ c ∧ c ≤ '9' then some (c.toNat - 48)
    else if 'a' ≤ c ∧ c ≤ 'z' then some (c.toNat - 87)
    else if 'A' ≤ c ∧ c ≤ 'Z' then some (c.toNat - 55)
    else none
  v.filter (fun d => decide (d < radix))

/-- The global function `parseInt(string)` called without a radix: leading white
space is skipped, a sign is read, a `0x` or `0X` prefix selects radix 16, and
the longest run of digits is converted and rounded to a double; with no digit
the result is `NaN`.  (The standard lets an engine drop decimal digits after
the 20th; the exact conversion is modelled, as done by V8.) -/
def parseInt (string : Str) : JSNum :=
  let s := trimStart string
  let signed : Bool × Str :=
    match s with
    | '-' :: r => (true, r)
    | '+' :: r => (false, r)
    | _ => (false, s)
  let radixed : Nat × Str :=
    match signed.2 with
    | '0' :: 'x' :: r => (16, r)
    | '0' :: 'X' :: r => (16, r)
    | _ => (10, signed.2)
  let radix := radixed.1
  let z := radixed.2.takeWhile (fun c => (digitValue radix c).isSome)
  if z = [] then JSNum.nan
  else JSNum.ofSignMagnitude signed.1
    (z.foldl (fun acc c => acc * radix + (digitValue radix c).getD 0) 0)

/-- The search of `shortestDecimal`: the multiple of the largest power of ten,
at most `10 ^ z`, that rounds to the double `x`; of two such multiples the one
nearer to `x`, and of two equally near the one with the even quotient. -/
def shortestDecimalAux (x : Nat) : Nat → Nat
  | 0 => x
  | z + 1 =>
    let lo := x / 10 ^ (z + 1) * 10 ^ (z + 1)
    let hi := lo + 10 ^ (z + 1)
    let okLo := decide (roundToDouble lo = some x)
    let okHi := decide (roundToDouble hi = some x)
    if okLo && okHi then
      if x - lo < hi - x then lo
      else if hi - x < x - lo then hi
      else if (x / 10 ^ (z + 1)) % 2 = 0 then lo else hi
    else if okLo then lo
    else if okHi then hi
    else shortestDecimalAux x z

/-- The decimal with the fewest significant digits that rounds to the double
`x`, as chosen by `Number.prototype.toString`. -/
def shortestDecimal (x : Nat) : Nat := shortestDecimalAux x (Nat.toDigits 10 x).length

/-- The string of a non-negative double with an integer value.  Up to `2 ^ 53`
the neighbouring doubles are at least 1 apart on one side and integers or
halves on the other, so the shortest decimal that rounds to `x` is `x` itself
and the digits of `x` are printed; above, the shortest decimal is printed, in
exponent form when it has more than 21 digits. -/
def natToString (x : Nat) : Str :=
  if x ≤ 2 ^ 53 then Nat.toDigits 10 x
  else
    let digits := Nat.toDigits 10 (shortestDecimal x)
    if digits.length ≤ 21 then digits
    else
      match digits.rdropWhile (fun c => c == '0') with
      | [] => digits
      | [d] => d :: 'e' :: '+' :: Nat.toDigits 10 (digits.length - 1)
      | d :: rest => d :: '.' :: rest ++ 'e' :: '+' :: Nat.toDigits 10 (digits.length - 1)

/-- Conversion of a number to a string, as done by a template literal. -/
def numToString : JSNum → Str
  | JSNum.nan => ['N', 'a', 'N']
  | JSNum.inf negative => if negative then "-Infinity".toList else "Infinity".toList
  | JSNum.int i => if i < 0 then '-' :: natToString i.natAbs else natToString i.natAbs

/-- The comparison `a < b`; false when an operand is `NaN`. -/
def JSNum.lt : JSNum → JSNum → Bool
  | JSNum.int a, JSNum.int b => decide (a < b)
  | JSNum.inf true, JSNum.int _ => true
  | JSNum.int _, JSNum.inf false => true
  | JSNum.inf true, JSNum.inf false => true
  | _, _ => false

/-- The comparison `a > b`; false when an operand is `NaN`. -/
def JSNum.gt (a b : JSNum) : Bool := JSNum.lt b a

/-- The comparison `a === b` on numbers; false when an operand is `NaN`. -/
def JSNum.strictEq : JSNum → JSNum → Bool
  | JSNum.int a, JSNum.int b => decide (a = b)
  | JSNum.inf s, JSNum.inf t => decide (s = t)
  | _, _ => false

/-- The scaling of the quotient `a / d` of two positive integers to a
significand of 53 bits: the numerator is multiplied by `2 ^ up` or the
denominator by `2 ^ down`, so that the scaled quotient lies in
`[2 ^ 52, 2 ^ 53)`. -/
def quotientScale (a d : Nat) : Nat × Nat :=
  let c := if a * 2 ^ log2 d ≥ d * 2 ^ log2 a then 0 else 1
  if log2 a ≤ 52 + log2 d + c then (52 + log2 d + c - log2 a, 0)
  else (0, log2 a - (52 + log2 d + c))

/-- The significand of the double quotient `a / d`: the scaled quotient rounded
to the nearest integer, ties to even. -/
def quotientSignificand (a d : Nat) : Nat :=
  roundHalfEven (a * 2 ^ (quotientScale a d).1) (d * 2 ^ (quotientScale a d).2)

/-- The floor of the double quotient `a / d` of two positive integers. -/
def floorQuotient (a d : Nat) : Nat :=
  quotientSignificand a d * 2 ^ (quotientScale a d).2 / 2 ^ (quotientScale a d).1

/-- The ceiling of the double quotient `a / d` of two positive integers. -/
def ceilQuotient (a d : Nat) : Nat :=
  (quotientSignificand a d * 2 ^ (quotientScale a d).2 + (2 ^ (quotientScale a d).1 - 1))
    / 2 ^ (quotientScale a d).1

/-- The expression `Math.floor(a / d)` for a positive integer constant `d`: the
quotient is rounded to a double, then floored. -/
def JSNum.floorDiv : JSNum → Nat → JSNum
  | JSNum.nan, _ => JSNum.nan
  | JSNum.inf negative, _ => JSNum.inf negative
  | JSNum.int i, d =>
    if i = 0 then JSNum.int 0
    else if 0 < i then JSNum.int (floorQuotient i.natAbs d)
    else JSNum.int (-(ceilQuotient i.natAbs d : Int))

/-- The expression `a % d` for a positive integer constant `d`: exact on
doubles, the remainder has the sign of the dividend; `NaN` for `NaN` and for
the infinities. -/
def JSNum.rem : JSNum → Nat → JSNum
  | JSNum.int a, d => JSNum.int (Int.tmod a d)
  | _, _ => JSNum.nan

/-! ## `formatCookTime` -/

/-- `formatCookTime(minutes)`.  The body has no `throw` and calls nothing that
throws, so every call returns a string. -/
def formatCookTime (minutes : JSNum) : Str :=
  if JSNum.lt minutes (JSNum.int 60) then
    numToString minutes ++ " minutes".toList
  else
    let hours := JSNum.floorDiv minutes 60
    let mins := JSNum.rem minutes 60
    if JSNum.strictEq mins (JSNum.int 0) then
      numToString hours ++ " hour".toList ++ (if JSNum.gt hours (JSNum.int 1) then ['s'] else [])
    else
      numToString hours ++ " hour".toList ++ (if JSNum.gt hours (JSNum.int 1) then ['s'] else [])
        ++ [' '] ++ numToString mins ++ " minutes".toList

/-! ## The catalog -/

/-- The object literal built by `loadRecipes` for one data row. -/
structure Recipe where
  soup_name : Str
  difficulty : Str
  ingredients : Str
  cook_time_minutes : JSNum
  instructions : Str
  source : Str
deriving DecidableEq, Repr

/-- The allow-list `SUPPORTED_SOUPS`. -/
def SUPPORTED_SOUPS : List Str :=
  ["Lotus Root with Peanut Soup".toList,
   "ABC Soup".toList,
   "Watercress Soup".toList,
   "Old Cucumber Soup".toList,
   "Herbal Chicken Soup".toList]

/-- `Array.prototype.indexOf`: the first index of `x`, or `-1`. -/
def jsIndexOf (xs : List Str) (x : Str) : Int :=
  if x ∈ xs then (xs.indexOf x : Nat) else -1

/-- The comparator passed to `recipes.sort`. -/
def compareRecipes (a b : Recipe) : Int :=
  jsIndexOf SUPPORTED_SOUPS a.soup_name - jsIndexOf SUPPORTED_SOUPS b.soup_name

/-- `Array.prototype.sort` with a comparator: a stable sort (ECMAScript 2019),
here insertion sort, in which `a` stays before `b` when `cmp a b ≤ 0`. -/
def jsSort {α : Type} (cmp : α → α → Int) (xs : List α) : List α :=
  xs.insertionSort (fun a b => cmp a b ≤ 0)

/-- The object literal of `loadRecipes`, from the fields of a row. -/
def recipeOfValues (values : List Str) : Recipe :=
  { soup_name := values.getD 0 []
    difficulty := values.getD 1 []
    ingredients := values.getD 2 []
    cook_time_minutes := parseInt (values.getD 3 [])
    instructions := values.getD 4 []
    source := values.getD 5 [] }

/-- The body of the `for` loop of `loadRecipes` for one line: `recipes` is the
module-level array before the iteration, the result is the array after it. -/
def loadStep (recipes : List Recipe) (line : Str) : List Recipe :=
  let values := parseCSVLine line
  if values.length ≥ 6 then
    let recipe := recipeOfValues values
    if recipe.soup_name ∈ SUPPORTED_SOUPS then recipes ++ [recipe] else recipes
  else recipes

/-- `loadRecipes`, after the text has been fetched: `recipes` is the module-level
array when the function is entered, the result is the array when it calls
`displayRecipes`.  The array `headers` is computed from `lines[0]` and never
read, so it is left out; the loop starts at index 1, that is, at the tail of
`lines`. -/
def loadRecipes (recipes : List Recipe) (csvText : Str) : List Recipe :=
  let lines := split '\n' (trim csvText)
  let pushed := lines.tail.foldl loadStep recipes
  jsSort compareRecipes pushed

/-- The records of the valid rows among `lines`, in order: the lines with at
least 6 fields, mapped positionally. -/
def rowRecords (lines : List Str) : List Recipe :=
  ((lines.map parseCSVLine).filter (fun values => decide (6 ≤ values.length))).map recipeOfValues

/-- The catalog in the words of the specification: the lines of the text after
the first, parsed, rows with fewer than 6 fields skipped, mapped to records,
filtered by the allow-list and stably sorted by the index of the name in it. -/
def referenceCatalog (text : Str) : List Recipe :=
  ((rowRecords (split '\n' text).tail).filter (fun r => decide (r.soup_name ∈ SUPPORTED_SOUPS)))
    |>.insertionSort (fun a b => jsIndexOf SUPPORTED_SOUPS a.soup_name ≤
        jsIndexOf SUPPORTED_SOUPS b.soup_name)

/-! ## The detail view -/

/-- The regular-expression class `\d`. -/
def isDigit (c : Char) : Bool := decide ('0' ≤ c ∧ c ≤ '9')

/-- A match of `/\d+\)\s*/` at the start of `s`: its length, if there is one.
The digits and the white space are taken greedily; giving digits back cannot
help, since the character after a shorter run is a digit and not `)`. -/
def matchStepMarker (s : Str) : Option Nat :=
  let digits := s.takeWhile isDigit
  if digits = [] then none
  else
    match s.dropWhile isDigit with
    | ')' :: rest => some (digits.length + 1 + (rest.takeWhile isJSWhitespace).length)
    | _ => none

/-- The scan of `String.prototype.split` with the separator `/\d+\)\s*/`:
`piece` is the text since the last match and `skip` the number of characters
of the current match still to pass over. -/
def splitStepMarkersAux : Str → Str → Nat → List Str
  | [], piece, _ => [piece]
  | _ :: cs, piece, skip + 1 => splitStepMarkersAux cs piece skip
  | c :: cs, piece, 0 =>
    match matchStepMarker (c :: cs) with
    | some n => piece :: splitStepMarkersAux cs [] (n - 1)
    | none => splitStepMarkersAux cs (piece ++ [c]) 0

/-- `s.split(/\d+\)\s*/)`. -/
def splitStepMarkers (s : Str) : List Str := splitStepMarkersAux s [] 0

/-- `instruction.replace(/\.$/, '')`: a period at the very end is removed. -/
def stripFinalPeriod (instruction : Str) : Str :=
  if instruction.getLast? = some '.' then instruction.dropLast else instruction

/-- The array `ingredients` of `openRecipeModal`. -/
def modalIngredients (recipe : Recipe) : List Str :=
  (split ',' recipe.ingredients).map trim

/-- The ingredient list in the words of the specification: split on `,`, trim
each piece, drop the pieces that are empty after trimming. -/
def ingredientsSpec (ingredients_raw : Str) : List Str :=
  ((split ',' ingredients_raw).map trim).filter (fun piece => decide (piece ≠ []))

/-- The array `instructions` of `openRecipeModal`. -/
def modalInstructionPieces (recipe : Recipe) : List Str :=
  if ')' ∈ recipe.instructions then
    ((splitStepMarkers recipe.instructions).filter (fun i => decide ((trim i).length > 0))).map trim
  else
    ((split '.' recipe.instructions).filter (fun i => decide ((trim i).length > 0))).map trim

/-- The text of one instruction item: the piece without a final period,
followed by a period. -/
def renderInstruction (instruction : Str) : Str :=
  stripFinalPeriod instruction ++ ['.']

/-- The texts of the instruction items written by `openRecipeModal`. -/
def modalInstructions (recipe : Recipe) : List Str :=
  (modalInstructionPieces recipe).map renderInstruction

/-- What `openRecipeModal` writes into the detail view. -/
structure Modal where
  title : Str
  cookTime : Str
  difficulty : Str
  ingredients : List Str
  instructions : List Str
deriving DecidableEq, Repr

/-- `openRecipeModal(soupName)` on the catalog `recipes`: `none` when no record
has that name (the function logs and returns), otherwise the detail view. -/
def openRecipeModal (recipes : List Recipe) (soupName : Str) : Option Modal :=
  match recipes.find? (fun r => decide (r.soup_name = soupName)) with
  | none => none
  | some recipe =>
    some { title := recipe.soup_name
           cookTime := formatCookTime recipe.cook_time_minutes
           difficulty := recipe.difficulty
           ingredients := modalIngredients recipe
           instructions := modalInstructions recipe }

/-- A record with the given name, ingredients and instructions, for examples. -/
def sampleRecipe (name ingredients instructions : Str) : Recipe :=
  { soup_name := name, difficulty := "Easy".toList, ingredients := ingredients,
    cook_time_minutes := JSNum.int 90, instructions := instructions, source := "Home".toList }

/-! ## The line parser: field count -/

theorem parseLoop_append (st : ParseState) (a b : Str) :
    parseLoop st (a ++ b) = parseLoop (parseLoop st a) b := by
  simp [parseLoop, List.foldl_append]

theorem parseLoop_concat (st : ParseState) (a : Str) (c : Char) :
    parseLoop st (a ++ [c]) = parseStep (parseLoop st a) c := by
  simp [parseLoop, List.foldl_append]

theorem separatorCount_concat (l : Str) (c : Char) :
    separatorCount (l ++ [c]) =
      separatorCount l + (if c = ',' ∧ l.count '"' % 2 = 0 then 1 else 0) := by
  unfold separatorCount
  rw [List.length_append, List.length_singleton, List.range_succ, List.filter_append,
    List.length_append]
  congr 1
  · congr 1
    apply List.filter_congr
    intro i hi
    rw [List.mem_range] at hi
    have h1 : (l ++ [c]).getD i ' ' = l.getD i ' ' := by
      simp [List.getD_eq_getElem?_getD, List.getElem?_append_left hi]
    have h2 : (l ++ [c]).take i = l.take i := by
      rw [List.take_append_of_le_length (le_of_lt hi)]
    rw [h1, h2]
  · have h1 : (l ++ [c]).getD l.length ' ' = c := by
      simp [List.getD_eq_getElem?_getD]
    have h2 : (l ++ [c]).take l.length = l := by
      simp
    by_cases h : c = ',' ∧ l.count '"' % 2 = 0
    · simp [List.filter_cons, h1, h2, h]
    · rw [if_neg h]
      simp only [List.filter_cons, h1, h2, List.filter_nil]
      have : (decide (c = ',') && decide (List.count '"' l % 2 = 0)) = false := by
        rcases not_and_or.mp h with h | h <;> simp [h]
      simp [this]

theorem parseLoop_invariant (l : Str) :
    (parseLoop ⟨[], [], false⟩ l).result.length = separatorCount l ∧
    (parseLoop ⟨[], [], false⟩ l).inQuotes = decide (l.count '"' % 2 = 1) := by
  induction l using List.reverseRecOn with
  | nil => simp [parseLoop, separatorCount]
  | append_singleton l c ih =>
    obtain ⟨ih1, ih2⟩ := ih
    rw [parseLoop_concat, separatorCount_concat]
    by_cases hq : c = '"'
    · subst hq
      simp only [parseStep, if_true, ih1, ih2, List.count_append, List.count_singleton_self]
      constructor
      · simp
      · rcases Nat.mod_two_eq_zero_or_one (List.count '"' l) with h | h <;> simp [h, Nat.add_mod]
    · have hc : List.count '"' [c] = 0 := by
        simp [List.count_singleton, hq]
      by_cases hs : c = ',' ∧ (parseLoop ⟨[], [], false⟩ l).inQuotes = false
      · simp only [parseStep, if_neg hq, if_pos hs, List.length_append, List.length_singleton,
          ih1, ih2, List.count_append, hc, Nat.add_zero]
        rw [ih2] at hs
        have : List.count '"' l % 2 = 0 := by
          rcases Nat.mod_two_eq_zero_or_one (List.count '"' l) with h | h
          · exact h
          · simp [h] at hs
        simp [hs.1, this, ih1]
      · simp only [parseStep, if_neg hq, if_neg hs, ih1, ih2, List.count_append, hc, Nat.add_zero]
        rw [ih2] at hs
        have : ¬ (c = ',' ∧ List.count '"' l % 2 = 0) := by
          rintro ⟨h1, h2⟩
          exact hs ⟨h1, by simp [h2]⟩
        simp [this, ih1]


/-- C1: for every line, `parseCSVLine` returns a non-empty list of fields whose
length is one plus the number of commas preceded by an even number of quotes;
its last element is the trimmed final field, whatever the quote mode at the end
of the line; the empty line gives one empty field, and a line with an unmatched
quote still ends with its final field. -/
theorem parseCSVLine_field_count (line : Str) :
    parseCSVLine line ≠ [] ∧
    (parseCSVLine line).length = 1 + separatorCount line ∧
    (parseCSVLine line).getLast? = some (trim (parseLoop ⟨[], [], false⟩ line).current) ∧
    parseCSVLine [] = [[]] ∧
    parseCSVLine "a,\"b,c".toList = ["a".toList, "b,c".toList] := by
  refine ⟨?_, ?_, ?_, by decide, by decide⟩
  · simp [parseCSVLine, parseFinish]
  · simp only [parseCSVLine, parseFinish, List.length_append, List.length_singleton,
      (parseLoop_invariant line).1]
    omega
  · simp [parseCSVLine, parseFinish]

/-! ## The duration formatter -/

theorem log2Aux_spec (fuel n : Nat) (h1 : 1 ≤ n) (h2 : n ≤ fuel) :
    2 ^ log2Aux fuel n ≤ n ∧ n < 2 ^ (log2Aux fuel n + 1) := by
  induction fuel generalizing n with
  | zero => omega
  | succ fuel ih =>
    unfold log2Aux
    by_cases hn : n < 2
    · rw [if_pos hn]
      constructor <;> simp <;> omega
    · rw [if_neg hn]
      obtain ⟨ih1, ih2⟩ := ih (n / 2) (by omega) (by omega)
      constructor
      · rw [pow_succ]; omega
      · rw [pow_succ] at ih2 ⊢; omega

theorem log2_spec {n : Nat} (h : 1 ≤ n) : 2 ^ log2 n ≤ n ∧ n < 2 ^ (log2 n + 1) :=
  log2Aux_spec n n h le_rfl

theorem log2_le_of_lt_pow {n k : Nat} (h1 : 1 ≤ n) (h : n < 2 ^ (k + 1)) : log2 n ≤ k := by
  by_contra hc
  have h2 : 2 ^ (k + 1) ≤ 2 ^ log2 n := Nat.pow_le_pow_right (by norm_num) (by omega)
  have := (log2_spec h1).1
  omega

theorem roundHalfEven_scaled_div (n P : Nat) (hP : 32 ≤ P) :
    roundHalfEven (n * P) 60 / P = n / 60 := by
  have hn : n = 60 * (n / 60) + n % 60 := (Nat.div_add_mod n 60).symm
  have hr : n % 60 < 60 := Nat.mod_lt _ (by norm_num)
  have hZ : n % 60 * P ≤ 59 * P := Nat.mul_le_mul_right P (by omega)
  have hnP : n * P = 60 * (n / 60 * P) + n % 60 * P := by
    conv_lhs => rw [hn]
    ring
  generalize hA : n / 60 * P = A at hnP
  generalize hZd : n % 60 * P = Z at hnP hZ
  have hdiv : n * P / 60 = A + Z / 60 := by omega
  have hmod : n * P % 60 = Z % 60 := by omega
  have hlow : A ≤ roundHalfEven (n * P) 60 := by
    unfold roundHalfEven
    split_ifs <;> omega
  have hhigh : roundHalfEven (n * P) 60 < A + P := by
    unfold roundHalfEven
    split_ifs <;> omega
  apply Nat.div_eq_of_lt_le
  · rw [hA]; exact hlow
  · rw [Nat.succ_mul, hA]; exact hhigh

theorem log2_sixty : log2 60 = 5 := by decide

theorem floorQuotient_sixty {n : Nat} (h1 : 1 ≤ n) (h2 : n ≤ 2 ^ 53) :
    floorQuotient n 60 = n / 60 := by
  have hL := log2_spec h1
  have hL53 : log2 n ≤ 53 := log2_le_of_lt_pow h1 (by
    calc n ≤ 2 ^ 53 := h2
      _ < 2 ^ (53 + 1) := by norm_num)
  have hc : (if n * 2 ^ log2 60 ≥ 60 * 2 ^ log2 n then 0 else 1) + 57 ≥ log2 n + 5 := by
    split_ifs with hcond
    · rw [log2_sixty] at hcond
      have : log2 n ≤ 52 := by
        by_contra hcon
        have h53 : log2 n = 53 := by omega
        rw [h53] at hcond
        norm_num at hcond
        norm_num at h2
        omega
      omega
    · omega
  obtain ⟨up, hup, hscale⟩ : ∃ up, 5 ≤ up ∧ quotientScale n 60 = (up, 0) := by
    unfold quotientScale
    simp only [log2_sixty] at hc ⊢
    refine ⟨52 + 5 + (if n * 2 ^ 5 ≥ 60 * 2 ^ log2 n then 0 else 1) - log2 n, by omega, ?_⟩
    rw [if_pos (by omega)]
  unfold floorQuotient quotientSignificand
  rw [hscale]
  simp only [pow_zero, Nat.mul_one]
  exact roundHalfEven_scaled_div n (2 ^ up) (by
    calc 32 = 2 ^ 5 := by norm_num
      _ ≤ 2 ^ up := Nat.pow_le_pow_right (by norm_num) hup)

theorem JSNum.floorDiv_nat {n : Nat} (h : n ≤ 2 ^ 53) :
    JSNum.floorDiv (JSNum.int n) 60 = JSNum.int ((n / 60 : Nat) : Int) := by
  unfold JSNum.floorDiv
  by_cases h0 : n = 0
  · subst h0; simp
  · have hpos : 0 < (n : Int) := by exact_mod_cast Nat.pos_of_ne_zero h0
    have hne : ¬ (n : Int) = 0 := by omega
    simp only [hne, hpos, if_true, if_false, Int.natAbs_ofNat]
    rw [floorQuotient_sixty (Nat.pos_of_ne_zero h0) h]

theorem JSNum.rem_nat (n : Nat) : JSNum.rem (JSNum.int n) 60 = JSNum.int ((n % 60 : Nat) : Int) := by
  simp only [JSNum.rem]
  rw [Int.tmod_eq_emod (by positivity) (by norm_num)]
  norm_cast

theorem numToString_nat {n : Nat} (h : n ≤ 2 ^ 53) :
    numToString (JSNum.int n) = Nat.toDigits 10 n := by
  have hneg : ¬ ((n : Int) < 0) := by omega
  simp only [numToString, natToString, hneg, if_false, Int.natAbs_ofNat, h, if_true]

/-- C6 (as amended): for every non-negative integer `n` of minutes up to
`2 ^ 53`, `formatCookTime n` is `<n> minutes` below 60; otherwise, with
`h = n / 60` and `r = n % 60`, it is `<h> hour`, with `s` appended exactly when
`h > 1`, followed by ` <r> minutes` exactly when `r > 0`.  The three examples of
the specification are included. -/
theorem formatCookTime_spec :
    (∀ n : Nat, n ≤ 2 ^ 53 → formatCookTime (JSNum.int n) =
      if n < 60 then Nat.toDigits 10 n ++ " minutes".toList
      else if n % 60 = 0 then
        Nat.toDigits 10 (n / 60) ++ " hour".toList ++ (if n / 60 > 1 then "s".toList else [])
      else
        Nat.toDigits 10 (n / 60) ++ " hour".toList ++ (if n / 60 > 1 then "s".toList else [])
          ++ " ".toList ++ Nat.toDigits 10 (n % 60) ++ " minutes".toList) ∧
    formatCookTime (JSNum.int 90) = "1 hour 30 minutes".toList ∧
    formatCookTime (JSNum.int 120) = "2 hours".toList ∧
    formatCookTime (JSNum.int 45) = "45 minutes".toList := by
  refine ⟨?_, by decide, by decide, by decide⟩
  intro n hn
  have hq : n / 60 ≤ 2 ^ 53 := le_trans (Nat.div_le_self n 60) hn
  have hm : n % 60 ≤ 2 ^ 53 := le_trans (Nat.mod_le n 60) hn
  unfold formatCookTime
  by_cases h : n < 60
  · have : JSNum.lt (JSNum.int n) (JSNum.int 60) = true := by simp [JSNum.lt]; exact_mod_cast h
    rw [if_pos this, if_pos h, numToString_nat hn]
  · have : JSNum.lt (JSNum.int n) (JSNum.int 60) = false := by simp [JSNum.lt]; exact_mod_cast Nat.le_of_not_lt h
    simp only [this, if_neg h, JSNum.floorDiv_nat hn, JSNum.rem_nat, numToString_nat hq,
      numToString_nat hm, Bool.false_eq_true, if_false]
    have e1 : JSNum.strictEq (JSNum.int ((n % 60 : Nat) : Int)) (JSNum.int 0) = decide (n % 60 = 0) := by
      simp only [JSNum.strictEq]
      congr 1
      exact propext (by exact_mod_cast Iff.rfl)
    have e2 : JSNum.gt (JSNum.int ((n / 60 : Nat) : Int)) (JSNum.int 1) = decide (n / 60 > 1) := by
      simp [JSNum.gt, JSNum.lt]
      exact_mod_cast Iff.rfl
    rw [e1, e2]
    by_cases hr : n % 60 = 0 <;> by_cases hh : n / 60 > 1 <;> simp [hr, hh]

/-- Witness for C6: 150 minutes. -/
theorem formatCookTime_spec_witness :
    formatCookTime (JSNum.int (150 : Nat)) = "2 hours 30 minutes".toList :=
  (formatCookTime_spec.1 150 (by norm_num)).trans (by decide)

/-- Counterexample to C6 as stated: 67553994410557496 minutes is a double; its
quotient by 60 is not, and the nearest double is the integer above it, so the
code prints 1125899906842625 hours where the quotient `n / 60` of the claim is
1125899906842624. -/
theorem formatCookTime_large :
    formatCookTime (JSNum.int 67553994410557496) = "1125899906842625 hours 56 minutes".toList ∧
    (67553994410557496 / 60 = 1125899906842624 ∧ 67553994410557496 % 60 = 56) ∧
    roundToDouble 67553994410557496 = some 67553994410557496 := by
  decide

/-! ## Splitting and trimming -/

theorem split_ne_nil (sep : Char) (s : Str) : split sep s ≠ [] := by
  cases s with
  | nil => simp [split]
  | cons c cs => simp only [split]; split_ifs <;> simp

theorem split_length (sep : Char) (s : Str) : (split sep s).length = 1 + s.count sep := by
  induction s with
  | nil => simp [split]
  | cons c cs ih =>
    have hne := split_ne_nil sep cs
    by_cases h : c = sep
    · subst h
      simp [split, ih]
      omega
    · have hl : (split sep cs).tail.length + 1 = (split sep cs).length := by
        cases hs : split sep cs with
        | nil => exact absurd hs hne
        | cons a as => simp
      simp only [split, if_neg h, List.length_cons, hl, ih]
      rw [List.count_cons_of_ne (fun e => h e.symm)]

theorem not_mem_of_mem_split (sep : Char) (s : Str) : ∀ p ∈ split sep s, sep ∉ p := by
  induction s with
  | nil => simp [split]
  | cons c cs ih =>
    have hne := split_ne_nil sep cs
    intro p hp
    cases hs : split sep cs with
    | nil => exact absurd hs hne
    | cons a as =>
      rw [hs] at ih
      by_cases h : c = sep
      · simp only [split, if_pos h, hs, List.mem_cons] at hp
        rcases hp with rfl | rfl | hp
        · simp
        · exact ih _ (by simp)
        · exact ih _ (by simp [hp])
      · simp only [split, if_neg h, hs, List.headD_cons, List.tail_cons, List.mem_cons] at hp
        rcases hp with rfl | hp
        · have := ih a (by simp)
          simp only [List.mem_cons, not_or]
          exact ⟨fun e => h e.symm, this⟩
        · exact ih _ (by simp [hp])

theorem mem_of_mem_trim {c : Char} {s : Str} (h : c ∈ trim s) : c ∈ s := by
  unfold trim trimEnd trimStart at h
  have h1 := (List.rdropWhile_prefix isJSWhitespace (l := s.dropWhile isJSWhitespace)).subset h
  exact (List.dropWhile_suffix isJSWhitespace).subset h1

/-! ## The detail view -/

theorem stripFinalPeriod_of_not_mem {s : Str} (h : '.' ∉ s) : stripFinalPeriod s = s := by
  unfold stripFinalPeriod
  rw [if_neg]
  intro hl
  exact h (List.mem_of_getLast?_eq_some hl)

theorem mem_modalInstructionPieces {recipe : Recipe} {piece : Str}
    (h : piece ∈ modalInstructionPieces recipe) :
    piece ≠ [] ∧ (')' ∉ recipe.instructions → '.' ∉ piece) := by
  unfold modalInstructionPieces at h
  by_cases hp : ')' ∈ recipe.instructions
  · rw [if_pos hp] at h
    simp only [List.mem_map, List.mem_filter, decide_eq_true_eq] at h
    obtain ⟨i, ⟨_, hi⟩, rfl⟩ := h
    exact ⟨fun e => by simp [e] at hi, fun hn => absurd hp hn⟩
  · rw [if_neg hp] at h
    simp only [List.mem_map, List.mem_filter, decide_eq_true_eq] at h
    obtain ⟨i, ⟨hmem, hi⟩, rfl⟩ := h
    refine ⟨fun e => by simp [e] at hi, fun _ hdot => ?_⟩
    exact not_mem_of_mem_split '.' _ i hmem (mem_of_mem_trim hdot)

theorem stripFinalPeriod_shape {piece : Str} (hne : piece ≠ ['.'])
    (hnn : piece ≠ []) (hdd : ¬ ['.', '.'] <:+ piece) :
    stripFinalPeriod piece ≠ [] ∧ (stripFinalPeriod piece).getLast? ≠ some '.' := by
  unfold stripFinalPeriod
  by_cases h : piece.getLast? = some '.'
  · rw [if_pos h]
    obtain ⟨init, rfl⟩ : ∃ init, piece = init ++ ['.'] := by
      rcases List.eq_nil_or_concat piece with e | ⟨init, b, e⟩
      · exact absurd e hnn
      · subst e
        rw [List.concat_eq_append] at h ⊢
        simp at h
        exact ⟨init, by rw [h]⟩
    rw [List.dropLast_concat]
    constructor
    · rintro rfl
      exact hne rfl
    · intro hl
      apply hdd
      rcases List.eq_nil_or_concat init with e | ⟨init2, b, e⟩
      · subst e; simp at hl
      · subst e
        rw [List.concat_eq_append] at hl ⊢
        simp at hl
        subst hl
        exact ⟨init2, by simp⟩
  · rw [if_neg h]
    exact ⟨hnn, h⟩

theorem openRecipeModal_eq_some {recipes : List Recipe} {soupName : Str} {m : Modal}
    (h : openRecipeModal recipes soupName = some m) :
    ∃ recipe ∈ recipes, recipe.soup_name = soupName ∧
      m.ingredients = modalIngredients recipe ∧ m.instructions = modalInstructions recipe := by
  unfold openRecipeModal at h
  cases hf : recipes.find? (fun r => decide (r.soup_name = soupName)) with
  | none => rw [hf] at h; exact absurd h (by simp)
  | some recipe =>
    rw [hf] at h
    simp only [Option.some.injEq] at h
    subst h
    exact ⟨recipe, List.mem_of_find?_eq_some hf, by simpa using List.find?_some hf, rfl, rfl⟩

/-- C9 (as amended): every rendered instruction item is a non-empty trimmed
piece with its final period, if any, removed, followed by one period; the piece
is period-free when the text contains no `)`, and the item is non-empty text not
ending in a period followed by exactly one period unless the piece is a lone
period or ends with two periods.  The two examples of the specification hold. -/
theorem modalInstructions_items :
    (∀ recipe item, item ∈ modalInstructions recipe →
      ∃ piece, piece ∈ modalInstructionPieces recipe ∧ piece ≠ [] ∧
        item = stripFinalPeriod piece ++ ['.'] ∧
        (')' ∉ recipe.instructions →
          '.' ∉ piece ∧ stripFinalPeriod piece = piece) ∧
        (piece ≠ ['.'] → ¬ ['.', '.'] <:+ piece →
          stripFinalPeriod piece ≠ [] ∧ (stripFinalPeriod piece).getLast? ≠ some '.')) ∧
    modalInstructions (sampleRecipe [] [] "1) Boil. 2) Simmer.".toList)
      = ["Boil.".toList, "Simmer.".toList] ∧
    modalInstructions (sampleRecipe [] [] "Boil. Simmer.".toList)
      = ["Boil.".toList, "Simmer.".toList] := by
  refine ⟨?_, by decide, by decide⟩
  intro recipe item hitem
  unfold modalInstructions at hitem
  rw [List.mem_map] at hitem
  obtain ⟨piece, hmem, rfl⟩ := hitem
  obtain ⟨hne, hdot⟩ := mem_modalInstructionPieces hmem
  refine ⟨piece, hmem, hne, rfl, ?_, ?_⟩
  · intro hp
    exact ⟨hdot hp, stripFinalPeriod_of_not_mem (hdot hp)⟩
  · intro h1 h2
    exact stripFinalPeriod_shape h1 hne h2

/-- Witness for C9: the period-delimited text `Boil. Simmer.` has the item
`Boil.`, which comes from the period-free piece `Boil`. -/
theorem modalInstructions_items_witness :
    ∃ piece, piece ∈ modalInstructionPieces (sampleRecipe [] [] "Boil. Simmer.".toList) ∧
      piece ≠ [] ∧ "Boil.".toList = stripFinalPeriod piece ++ ['.'] ∧
      (')' ∉ (sampleRecipe [] [] "Boil. Simmer.".toList).instructions →
        '.' ∉ piece ∧ stripFinalPeriod piece = piece) ∧
      (piece ≠ ['.'] → ¬ ['.', '.'] <:+ piece →
        stripFinalPeriod piece ≠ [] ∧ (stripFinalPeriod piece).getLast? ≠ some '.') :=
  modalInstructions_items.1 (sampleRecipe [] [] "Boil. Simmer.".toList) "Boil.".toList
    (by decide)

/-- Counterexample to C9 as stated: in the numbered branch the piece `Boil..`
is rendered as `Boil..`, which ends with two periods, and the piece `.` is
rendered as a bare period. -/
theorem modalInstructions_double_period :
    modalInstructions (sampleRecipe [] [] "1) Boil.. 2) . 3) Simmer".toList)
      = ["Boil..".toList, ".".toList, "Simmer.".toList] := by
  decide

/-- C8: for the ingredient texts `a,,b`, `a,` and the empty text, the list
shown by the detail view contains an empty ingredient, where the list of the
specification (split on commas, trim, drop the empty pieces) has none: the
ingredient path of `openRecipeModal` has no filter, unlike its two instruction
paths. -/
theorem modalIngredients_keeps_empty :
    modalIngredients (sampleRecipe [] "a,,b".toList []) = ["a".toList, [], "b".toList] ∧
    ingredientsSpec "a,,b".toList = ["a".toList, "b".toList] ∧
    modalIngredients (sampleRecipe [] "a,".toList []) = ["a".toList, []] ∧
    ingredientsSpec "a,".toList = ["a".toList] ∧
    modalIngredients (sampleRecipe [] [] []) = [[]] ∧
    ingredientsSpec [] = [] := by
  decide

/-- C7 (as amended): when the duration field has no digits to parse, `parseInt`
gives `NaN`, and `formatCookTime` returns the string `NaN hour NaN minutes` for
it. -/
theorem formatCookTime_nan (field : Str) (h : parseInt field = JSNum.nan) :
    formatCookTime (parseInt field) = "NaN hour NaN minutes".toList := by
  rw [h]
  decide

/-- Witness for C7: the empty duration field. -/
theorem formatCookTime_nan_witness :
    parseInt [] = JSNum.nan ∧ formatCookTime (parseInt []) = "NaN hour NaN minutes".toList :=
  ⟨by decide, formatCookTime_nan [] (by decide)⟩

/-- Counterexample to C7 as stated: the duration field `abc` parses to `NaN`,
and `formatCookTime` returns a display string for it. -/
theorem formatCookTime_returns_on_nan :
    parseInt "abc".toList = JSNum.nan ∧
    formatCookTime (parseInt "abc".toList) = "NaN hour NaN minutes".toList := by
  decide

/-! ## The line parser: quoted fields -/

theorem parseLoop_inside_quotes (result : List Str) (current field : Str) (h : '"' ∉ field) :
    parseLoop ⟨result, current, true⟩ field = ⟨result, current ++ field, true⟩ := by
  induction field generalizing current with
  | nil => simp [parseLoop]
  | cons c cs ih =>
    simp only [List.mem_cons, not_or] at h
    have hc : ¬ c = '"' := fun e => h.1 e.symm
    have := ih (current ++ [c]) h.2
    simp only [parseLoop, List.foldl_cons] at this ⊢
    simp only [parseStep, if_neg hc, Bool.true_eq_false, and_false, if_false]
    rw [this]
    simp

theorem parseLoop_quoteField (result : List Str) (current field : Str) (h : '"' ∉ field) :
    parseLoop ⟨result, current, false⟩ (quoteField field) = ⟨result, current ++ field, false⟩ := by
  unfold quoteField
  rw [show '"' :: field ++ ['"'] = ['"'] ++ (field ++ ['"']) from rfl, parseLoop_append,
    parseLoop_concat]
  have h0 : parseLoop ⟨result, current, false⟩ ['"'] = ⟨result, current, true⟩ := by
    simp [parseLoop, parseStep]
  rw [h0, parseLoop_inside_quotes _ _ _ h]
  simp [parseStep]

theorem parseFinish_quoted_fields (result : List Str) (field : Str) (fields : List Str)
    (h : ∀ f ∈ field :: fields, '"' ∉ f ∧ trim f = f) :
    parseFinish (parseLoop ⟨result, [], false⟩ (joinComma ((field :: fields).map quoteField)))
      = result ++ field :: fields := by
  induction fields generalizing field result with
  | nil =>
    simp only [List.map_cons, List.map_nil, joinComma]
    rw [parseLoop_quoteField _ _ _ (h field (by simp)).1]
    simp [parseFinish, (h field (by simp)).2]
  | cons f2 fs ih =>
    simp only [List.map_cons, joinComma]
    rw [parseLoop_append, parseLoop_quoteField _ _ _ (h field (by simp)).1]
    have hstep : parseLoop ⟨result, [] ++ field, false⟩ (',' :: joinComma (quoteField f2 :: List.map quoteField fs))
        = parseLoop ⟨result ++ [field], [], false⟩ (joinComma ((f2 :: fs).map quoteField)) := by
      simp [parseLoop, parseStep, (h field (by simp)).2]
    rw [hstep, ih (result ++ [field]) f2 (fun f hf => h f (by simp [List.mem_cons] at hf ⊢; tauto))]
    simp

theorem parseStep_no_quote (st : ParseState) (c : Char)
    (h : (∀ f ∈ st.result, '"' ∉ f) ∧ '"' ∉ st.current) :
    (∀ f ∈ (parseStep st c).result, '"' ∉ f) ∧ '"' ∉ (parseStep st c).current := by
  unfold parseStep
  by_cases hq : c = '"'
  · rw [if_pos hq]; exact h
  · rw [if_neg hq]
    by_cases hs : c = ',' ∧ st.inQuotes = false
    · rw [if_pos hs]
      refine ⟨?_, by simp⟩
      intro f hf
      simp only [List.mem_append, List.mem_singleton] at hf
      rcases hf with hf | rfl
      · exact h.1 f hf
      · exact fun hm => h.2 (mem_of_mem_trim hm)
    · rw [if_neg hs]
      refine ⟨h.1, ?_⟩
      simp only [List.mem_append, List.mem_singleton, not_or]
      exact ⟨h.2, fun e => hq e.symm⟩

theorem parseLoop_no_quote (line : Str) (st : ParseState)
    (h : (∀ f ∈ st.result, '"' ∉ f) ∧ '"' ∉ st.current) :
    (∀ f ∈ (parseLoop st line).result, '"' ∉ f) ∧ '"' ∉ (parseLoop st line).current := by
  induction line generalizing st with
  | nil => exact h
  | cons c cs ih => exact ih (parseStep st c) (parseStep_no_quote st c h)

/-- C2: for every non-empty list of fields without a double quote and without
leading or trailing white space, wrapping each field in double quotes, joining
with commas and calling `parseCSVLine` returns the list; no field returned by
`parseCSVLine` on any line contains a double quote; and the example of the
specification holds. -/
theorem parseCSVLine_quoted_roundtrip :
    (∀ fields : List Str, fields ≠ [] → (∀ f ∈ fields, '"' ∉ f ∧ trim f = f) →
      parseCSVLine (joinComma (fields.map quoteField)) = fields) ∧
    (∀ line : Str, ∀ f ∈ parseCSVLine line, '"' ∉ f) ∧
    parseCSVLine "a,\"b,c\",d".toList = ["a".toList, "b,c".toList, "d".toList] := by
  refine ⟨?_, ?_, by decide⟩
  · intro fields hne h
    cases fields with
    | nil => exact absurd rfl hne
    | cons f fs =>
      have := parseFinish_quoted_fields [] f fs h
      simpa [parseCSVLine] using this
  · intro line f hf
    have hinv := parseLoop_no_quote line ⟨[], [], false⟩ ⟨by simp, by simp⟩
    simp only [parseCSVLine, parseFinish, List.mem_append, List.mem_singleton] at hf
    rcases hf with hf | rfl
    · exact hinv.1 f hf
    · exact fun hm => hinv.2 (mem_of_mem_trim hm)

/-- Witness for C2: three fields, one with commas and inner spaces and one
empty, are recovered from their quoted line. -/
theorem parseCSVLine_quoted_roundtrip_witness :
    parseCSVLine (joinComma (["a".toList, "b, c,d".toList, []].map quoteField))
      = ["a".toList, "b, c,d".toList, []] :=
  parseCSVLine_quoted_roundtrip.1 ["a".toList, "b, c,d".toList, []] (by decide) (by decide)

/-! ## Lines of a text -/

theorem split_of_not_mem {sep : Char} {l : Str} (h : sep ∉ l) : split sep l = [l] := by
  induction l with
  | nil => rfl
  | cons c cs ih =>
    simp only [List.mem_cons, not_or] at h
    have hc : ¬ c = sep := fun e => h.1 e.symm
    simp [split, hc, ih h.2]

theorem split_append_sep {sep : Char} {l : Str} (h : sep ∉ l) (r : Str) :
    split sep (l ++ sep :: r) = l :: split sep r := by
  induction l with
  | nil => simp [split]
  | cons c cs ih =>
    simp only [List.mem_cons, not_or] at h
    have hc : ¬ c = sep := fun e => h.1 e.symm
    simp [split, hc, ih h.2]

theorem split_joinLines (line : Str) (rest : List Str)
    (h : ∀ l ∈ line :: rest, '\n' ∉ l) : split '\n' (joinLines (line :: rest)) = line :: rest := by
  induction rest generalizing line with
  | nil => exact split_of_not_mem (h line (by simp))
  | cons l2 ls ih =>
    simp only [joinLines]
    rw [split_append_sep (h line (by simp)), ih l2 (fun l hl => h l (by simp [hl]))]

theorem split_concat_sep (sep : Char) (t : Str) : split sep (t ++ [sep]) = split sep t ++ [[]] := by
  induction t with
  | nil => simp [split]
  | cons x xs ih =>
    have hne := split_ne_nil sep xs
    by_cases hx : x = sep
    · simp [split, hx, ih]
    · cases hs : split sep xs with
      | nil => exact absurd hs hne
      | cons a as =>
        simp [split, hx, ih, hs]

theorem split_concat_other {sep c : Char} (hc : c ≠ sep) (t : Str) :
    ∃ init last, split sep t = init ++ [last] ∧ split sep (t ++ [c]) = init ++ [last ++ [c]] := by
  induction t with
  | nil => exact ⟨[], [], by simp [split], by simp [split, hc]⟩
  | cons x xs ih =>
    obtain ⟨init, last, h1, h2⟩ := ih
    by_cases hx : x = sep
    · exact ⟨[] :: init, last, by simp [split, hx, h1], by simp [split, hx, h2]⟩
    · cases init with
      | nil => exact ⟨[], x :: last, by simp [split, hx, h1], by simp [split, hx, h2]⟩
      | cons i is =>
        exact ⟨(x :: i) :: is, last, by simp [split, hx, h1], by simp [split, hx, h2]⟩

/-! ## White space at the ends -/

theorem trim_concat_whitespace (s : Str) {c : Char} (hc : isJSWhitespace c = true) :
    trim (s ++ [c]) = trim s := by
  unfold trim trimEnd trimStart
  rw [List.dropWhile_append]
  by_cases he : (List.dropWhile isJSWhitespace s).isEmpty = true
  · rw [if_pos he]
    have : List.dropWhile isJSWhitespace s = [] := by simpa using he
    rw [this]
    simp [List.dropWhile, hc, List.rdropWhile_nil]
  · rw [if_neg he, List.rdropWhile_concat_pos _ _ _ hc]

theorem parseCSVLine_concat_whitespace (l : Str) {c : Char} (hc : isJSWhitespace c = true) :
    parseCSVLine (l ++ [c]) = parseCSVLine l := by
  have h1 : ¬ c = '"' := by rintro rfl; exact absurd hc (by decide)
  have h2 : ¬ c = ',' := by rintro rfl; exact absurd hc (by decide)
  simp only [parseCSVLine, parseLoop_concat, parseStep, if_neg h1, h2, false_and, if_false,
    parseFinish, trim_concat_whitespace _ hc]

theorem rowRecords_append (a b : List Str) : rowRecords (a ++ b) = rowRecords a ++ rowRecords b := by
  simp [rowRecords]

theorem rowRecords_singleton_congr {l l2 : Str} (h : parseCSVLine l = parseCSVLine l2) :
    rowRecords [l] = rowRecords [l2] := by
  simp [rowRecords, h]

theorem rowRecords_tail_concat_whitespace (t : Str) {c : Char} (hc : isJSWhitespace c = true) :
    rowRecords (split '\n' (t ++ [c])).tail = rowRecords (split '\n' t).tail := by
  by_cases hn : c = '\n'
  · subst hn
    rw [split_concat_sep, List.tail_append_of_ne_nil (split_ne_nil _ _), rowRecords_append]
    have : rowRecords [[]] = [] := by decide
    rw [this, List.append_nil]
  · obtain ⟨init, last, h1, h2⟩ := split_concat_other hn t
    rw [h1, h2]
    cases init with
    | nil => rfl
    | cons i is =>
      simp only [List.cons_append, List.tail_cons, rowRecords_append]
      rw [rowRecords_singleton_congr (parseCSVLine_concat_whitespace last hc)]

theorem rowRecords_tail_trimEnd (t : Str) :
    rowRecords (split '\n' (trimEnd t)).tail = rowRecords (split '\n' t).tail := by
  induction t using List.reverseRecOn with
  | nil => rfl
  | append_singleton l c ih =>
    unfold trimEnd at ih ⊢
    by_cases hc : isJSWhitespace c = true
    · rw [List.rdropWhile_concat_pos _ _ _ hc, ih, rowRecords_tail_concat_whitespace l hc]
    · rw [List.rdropWhile_concat_neg _ _ _ hc]

theorem split_tail_trimStart (t : Str)
    (h : ∃ c ∈ (split '\n' t).headD [], isJSWhitespace c = false) :
    (split '\n' (trimStart t)).tail = (split '\n' t).tail := by
  induction t with
  | nil => rfl
  | cons x xs ih =>
    unfold trimStart at ih ⊢
    by_cases hx : isJSWhitespace x = true
    · rw [List.dropWhile_cons_of_pos hx]
      by_cases hn : x = '\n'
      · subst hn
        simp [split] at h
      · have hh : ∃ c ∈ (split '\n' xs).headD [], isJSWhitespace c = false := by
          obtain ⟨c, hc, hw⟩ := h
          simp only [split, if_neg hn, List.headD_cons, List.mem_cons] at hc
          rcases hc with rfl | hc
          · rw [hx] at hw; exact absurd hw (by simp)
          · exact ⟨c, hc, hw⟩
        rw [ih hh]
        simp [split, hn]
    · rw [List.dropWhile_cons_of_neg hx]

theorem rowRecords_tail_trim (t : Str)
    (h : ∃ c ∈ (split '\n' t).headD [], isJSWhitespace c = false) :
    rowRecords (split '\n' (trim t)).tail = rowRecords (split '\n' t).tail := by
  unfold trim
  rw [rowRecords_tail_trimEnd, split_tail_trimStart t h]

/-! ## The catalog builder -/

theorem foldl_loadStep (lines : List Str) (recipes : List Recipe) :
    lines.foldl loadStep recipes =
      recipes ++ (rowRecords lines).filter (fun r => decide (r.soup_name ∈ SUPPORTED_SOUPS)) := by
  induction lines generalizing recipes with
  | nil => simp [rowRecords]
  | cons l ls ih =>
    rw [List.foldl_cons, ih]
    have hsplit : rowRecords (l :: ls) = rowRecords [l] ++ rowRecords ls :=
      rowRecords_append [l] ls
    rw [hsplit, List.filter_append, ← List.append_assoc]
    congr 1
    unfold loadStep
    by_cases h6 : 6 ≤ (parseCSVLine l).length
    · by_cases hs : (recipeOfValues (parseCSVLine l)).soup_name ∈ SUPPORTED_SOUPS
      · simp [rowRecords, h6, hs]
      · simp [rowRecords, h6, hs]
    · simp [rowRecords, h6]

theorem orderedInsert_congr {α : Type} {r s : α → α → Prop} [DecidableRel r] [DecidableRel s]
    (h : ∀ a b, r a b ↔ s a b) (a : α) (l : List α) :
    l.orderedInsert r a = l.orderedInsert s a := by
  induction l with
  | nil => rfl
  | cons b bs ih => simp only [List.orderedInsert, h a b, ih]

theorem insertionSort_congr {α : Type} {r s : α → α → Prop} [DecidableRel r] [DecidableRel s]
    (h : ∀ a b, r a b ↔ s a b) (l : List α) :
    l.insertionSort r = l.insertionSort s := by
  induction l with
  | nil => rfl
  | cons b bs ih => simp only [List.insertionSort, ih, orderedInsert_congr h]

theorem jsSort_compareRecipes (l : List Recipe) :
    jsSort compareRecipes l =
      l.insertionSort (fun a b => jsIndexOf SUPPORTED_SOUPS a.soup_name ≤
        jsIndexOf SUPPORTED_SOUPS b.soup_name) := by
  unfold jsSort
  apply insertionSort_congr
  intro a b
  simp [compareRecipes]

theorem loadRecipes_eq (recipes : List Recipe) (text : Str) :
    loadRecipes recipes text =
      jsSort compareRecipes (recipes ++
        (rowRecords (split '\n' (trim text)).tail).filter
          (fun r => decide (r.soup_name ∈ SUPPORTED_SOUPS))) := by
  simp only [loadRecipes, foldl_loadStep]

theorem loadRecipes_nil_eq (text : Str) :
    loadRecipes [] text = referenceCatalog (trim text) := by
  rw [loadRecipes_eq, List.nil_append, jsSort_compareRecipes]
  rfl

theorem jsSort_perm {α : Type} (cmp : α → α → Int) (l : List α) : (jsSort cmp l).Perm l :=
  List.perm_insertionSort _ l

theorem jsSort_stable (l : List Recipe) (name : Str) :
    (jsSort compareRecipes l).filter (fun r => decide (r.soup_name = name))
      = l.filter (fun r => decide (r.soup_name = name)) := by
  have hpw : (l.filter (fun r => decide (r.soup_name = name))).Pairwise
      (fun a b => compareRecipes a b ≤ 0) := by
    rw [List.pairwise_filter]
    exact List.pairwise_of_forall (fun a b ha hb => by
      have ha2 : a.soup_name = name := by simpa using ha
      have hb2 : b.soup_name = name := by simpa using hb
      simp [compareRecipes, ha2, hb2])
  have hsub : List.Sublist (l.filter (fun r => decide (r.soup_name = name)))
      (jsSort compareRecipes l) :=
    List.sublist_insertionSort hpw (List.filter_sublist l)
  have hsub2 := hsub.filter (fun r => decide (r.soup_name = name))
  simp only [List.filter_filter, Bool.and_self] at hsub2
  have hlen : ((jsSort compareRecipes l).filter (fun r => decide (r.soup_name = name))).length
      = (l.filter (fun r => decide (r.soup_name = name))).length :=
    ((jsSort_perm compareRecipes l).filter _).length_eq
  exact (hsub2.eq_of_length hlen.symm).symm

theorem jsIndexOf_inj {a b : Str} (ha : a ∈ SUPPORTED_SOUPS) (hb : b ∈ SUPPORTED_SOUPS)
    (h : jsIndexOf SUPPORTED_SOUPS a = jsIndexOf SUPPORTED_SOUPS b) : a = b := by
  simp only [SUPPORTED_SOUPS, List.mem_cons, List.mem_singleton, List.not_mem_nil, or_false]
    at ha hb
  rcases ha with rfl | rfl | rfl | rfl | rfl <;> rcases hb with rfl | rfl | rfl | rfl | rfl <;>
    first
      | rfl
      | exact absurd h (by decide)

theorem sorted_names_jsSort (l : List Recipe) :
    ((jsSort compareRecipes l).map Recipe.soup_name).Pairwise
      (fun a b => jsIndexOf SUPPORTED_SOUPS a ≤ jsIndexOf SUPPORTED_SOUPS b) := by
  rw [jsSort_compareRecipes, List.pairwise_map]
  exact @List.sorted_insertionSort Recipe
    (fun a b => jsIndexOf SUPPORTED_SOUPS a.soup_name ≤ jsIndexOf SUPPORTED_SOUPS b.soup_name) _
    ⟨fun a b => le_total _ _⟩ ⟨fun a b c h1 h2 => le_trans h1 h2⟩ l

theorem mem_loadRecipes_nil {text : Str} {r : Recipe} (h : r ∈ loadRecipes [] text) :
    r.soup_name ∈ SUPPORTED_SOUPS ∧
    ∃ line ∈ (split '\n' (trim text)).tail,
      6 ≤ (parseCSVLine line).length ∧ r = recipeOfValues (parseCSVLine line) := by
  rw [loadRecipes_eq, List.nil_append] at h
  have h2 := (jsSort_perm _ _).subset h
  simp only [List.mem_filter, decide_eq_true_eq, rowRecords, List.mem_map] at h2
  obtain ⟨⟨values, ⟨⟨line, hline, rfl⟩, h6⟩, rfl⟩, hs⟩ := h2
  exact ⟨hs, line, hline, h6, rfl⟩


theorem count_names_filter (l : List Recipe) {name : Str} (h : name ∈ SUPPORTED_SOUPS) :
    ((l.filter (fun r => decide (r.soup_name ∈ SUPPORTED_SOUPS))).map Recipe.soup_name).count name
      = (l.map Recipe.soup_name).count name := by
  induction l with
  | nil => rfl
  | cons r rs ih =>
    by_cases hr : r.soup_name ∈ SUPPORTED_SOUPS
    · simp only [List.filter_cons, hr, decide_True, if_true, List.map_cons, List.count_cons, ih]
    · have hne : ¬ r.soup_name = name := fun e => hr (e ▸ h)
      simp only [List.filter_cons, hr, decide_False, Bool.false_eq_true, if_false, List.map_cons,
        List.count_cons, ih, beq_iff_eq, hne, Nat.add_zero]

/-- C3 (as amended): for every resource text, the catalog built by
`loadRecipes` from an empty catalog is the reference catalog of the trimmed
text: the lines after the first, parsed, rows with fewer than 6 fields skipped,
mapped positionally, filtered by the allow-list and stably sorted by the index
of the name.  It is the reference catalog of the text itself when the first line
has a character that is not white space.  Every record of the catalog has its
name in the allow-list and comes from a line with at least 6 fields, and the
records of one name are in the order of their rows. -/
theorem loadRecipes_reference (text : Str) :
    loadRecipes [] text = referenceCatalog (trim text) ∧
    ((∃ c ∈ (split '\n' text).headD [], isJSWhitespace c = false) →
      loadRecipes [] text = referenceCatalog text) ∧
    (∀ r ∈ loadRecipes [] text, r.soup_name ∈ SUPPORTED_SOUPS ∧
      ∃ line ∈ (split '\n' (trim text)).tail,
        6 ≤ (parseCSVLine line).length ∧ r = recipeOfValues (parseCSVLine line)) ∧
    (∀ name : Str, (loadRecipes [] text).filter (fun r => decide (r.soup_name = name))
      = ((rowRecords (split '\n' (trim text)).tail).filter
          (fun r => decide (r.soup_name ∈ SUPPORTED_SOUPS))).filter
            (fun r => decide (r.soup_name = name))) := by
  refine ⟨loadRecipes_nil_eq text, ?_, fun r hr => mem_loadRecipes_nil hr, ?_⟩
  · intro h
    rw [loadRecipes_nil_eq]
    unfold referenceCatalog
    rw [rowRecords_tail_trim text h]
  · intro name
    rw [loadRecipes_eq, List.nil_append]
    exact jsSort_stable _ name

/-- Witness for C3: a text with a header, a row with an unrecognized name, a
row with an allow-listed name and a row with too few fields. -/
theorem loadRecipes_reference_witness :
    loadRecipes [] "h\nFoo,e,i,5,s,src\nABC Soup,e,i,5,s,src\nABC Soup,e".toList
      = referenceCatalog "h\nFoo,e,i,5,s,src\nABC Soup,e,i,5,s,src\nABC Soup,e".toList :=
  (loadRecipes_reference "h\nFoo,e,i,5,s,src\nABC Soup,e,i,5,s,src\nABC Soup,e".toList).2.1
    ⟨'h', by decide, by decide⟩

/-- Counterexample to C3 as stated: for a text that starts with a newline the
code trims the text first, so the row after the empty first line becomes the
header and the catalog is empty, while the reference catalog of the text holds
that row. -/
theorem loadRecipes_leading_newline :
    loadRecipes [] "\nABC Soup,e,i,5,s,src".toList = [] ∧
    referenceCatalog "\nABC Soup,e,i,5,s,src".toList =
      [⟨"ABC Soup".toList, "e".toList, "i".toList, JSNum.int 5, "s".toList, "src".toList⟩] ∧
    loadRecipes [] "\nABC Soup,e,i,5,s,src".toList
      ≠ referenceCatalog "\nABC Soup,e,i,5,s,src".toList := by
  decide

/-- C4 (as amended): for every header line that has a character that is not
white space and every list of data rows, the names of the catalog built from
the header followed by the rows are the same for every permutation of the rows,
and they are non-decreasing in the index of the name within `SUPPORTED_SOUPS`. -/
theorem catalog_order_invariant (header : Str) (rows rows2 : List Str)
    (hh : ∃ c ∈ header, isJSWhitespace c = false) (hn : '\n' ∉ header)
    (hr : ∀ r ∈ rows, '\n' ∉ r) (hp : rows.Perm rows2) :
    (loadRecipes [] (joinLines (header :: rows))).map Recipe.soup_name
      = (loadRecipes [] (joinLines (header :: rows2))).map Recipe.soup_name ∧
    ((loadRecipes [] (joinLines (header :: rows))).map Recipe.soup_name).Pairwise
      (fun a b => jsIndexOf SUPPORTED_SOUPS a ≤ jsIndexOf SUPPORTED_SOUPS b) := by
  have hr2 : ∀ r ∈ rows2, '\n' ∉ r := fun r h => hr r (hp.symm.subset h)
  have key : ∀ rs : List Str, (∀ r ∈ rs, '\n' ∉ r) →
      loadRecipes [] (joinLines (header :: rs)) = jsSort compareRecipes
        ((rowRecords rs).filter (fun r => decide (r.soup_name ∈ SUPPORTED_SOUPS))) := by
    intro rs hrs
    have hs : split '\n' (joinLines (header :: rs)) = header :: rs :=
      split_joinLines header rs (by
        intro l hl
        rcases List.mem_cons.mp hl with rfl | hl
        · exact hn
        · exact hrs l hl)
    rw [loadRecipes_eq, List.nil_append, rowRecords_tail_trim _ (by rw [hs]; exact hh), hs]
    rfl
  rw [key rows hr, key rows2 hr2]
  refine ⟨?_, sorted_names_jsSort _⟩
  have hperm : ((rowRecords rows).filter (fun r => decide (r.soup_name ∈ SUPPORTED_SOUPS))).Perm
      ((rowRecords rows2).filter (fun r => decide (r.soup_name ∈ SUPPORTED_SOUPS))) := by
    unfold rowRecords
    exact (((hp.map _).filter _).map _).filter _
  have hmem : ∀ (l : List Recipe), ∀ a ∈ (jsSort compareRecipes
      (l.filter (fun r => decide (r.soup_name ∈ SUPPORTED_SOUPS)))).map Recipe.soup_name,
      a ∈ SUPPORTED_SOUPS := by
    intro l a ha
    rw [List.mem_map] at ha
    obtain ⟨r, hr, rfl⟩ := ha
    have := (jsSort_perm _ _).subset hr
    simpa using (List.mem_filter.mp this).2
  apply List.Perm.eq_of_sorted _ (sorted_names_jsSort _) (sorted_names_jsSort _)
  · exact (((jsSort_perm _ _).trans hperm).trans (jsSort_perm _ _).symm).map _
  · intro a b ha hb h1 h2
    exact jsIndexOf_inj (hmem _ a ha) (hmem _ b hb) (le_antisymm h1 h2)

/-- Witness for C4: two valid rows given in the reverse of the allow-list
order and in the allow-list order. -/
theorem catalog_order_invariant_witness :
    (loadRecipes [] (joinLines ("name,difficulty".toList ::
        ["Watercress Soup,e,i,5,s,src".toList, "ABC Soup,e,i,5,s,src".toList]))).map
        Recipe.soup_name
      = (loadRecipes [] (joinLines ("name,difficulty".toList ::
        ["ABC Soup,e,i,5,s,src".toList, "Watercress Soup,e,i,5,s,src".toList]))).map
        Recipe.soup_name ∧
    ((loadRecipes [] (joinLines ("name,difficulty".toList ::
        ["Watercress Soup,e,i,5,s,src".toList, "ABC Soup,e,i,5,s,src".toList]))).map
        Recipe.soup_name).Pairwise
      (fun a b => jsIndexOf SUPPORTED_SOUPS a ≤ jsIndexOf SUPPORTED_SOUPS b) :=
  catalog_order_invariant "name,difficulty".toList
    ["Watercress Soup,e,i,5,s,src".toList, "ABC Soup,e,i,5,s,src".toList]
    ["ABC Soup,e,i,5,s,src".toList, "Watercress Soup,e,i,5,s,src".toList]
    ⟨'n', by decide, by decide⟩ (by decide) (by decide) (List.Perm.swap _ _ [])

/-- Counterexample to C4 as stated: with the empty line as header the text is
trimmed, the first data row takes the place of the header, and the two orders
of the same two valid rows give catalogs with different names. -/
theorem catalog_order_empty_header :
    (loadRecipes [] (joinLines ([] ::
        ["ABC Soup,e,i,5,s,src".toList, "Watercress Soup,e,i,5,s,src".toList]))).map
        Recipe.soup_name = ["Watercress Soup".toList] ∧
    (loadRecipes [] (joinLines ([] ::
        ["Watercress Soup,e,i,5,s,src".toList, "ABC Soup,e,i,5,s,src".toList]))).map
        Recipe.soup_name = ["ABC Soup".toList] := by
  decide

/-- C5 (as amended): for every resource text, every name of `SUPPORTED_SOUPS`
appears in the catalog built by `loadRecipes` from an empty catalog exactly as
many times as there are valid data rows with that name among the lines after
the first of the trimmed text; these are the lines after the first of the text
itself when its first line has a character that is not white space.  When no
two valid data rows with an allow-listed name have the same name, no name
appears twice and the catalog has at most 5 entries. -/
theorem catalog_name_count (text : Str) :
    (∀ name ∈ SUPPORTED_SOUPS,
      ((loadRecipes [] text).map Recipe.soup_name).count name
        = ((rowRecords (split '\n' (trim text)).tail).map Recipe.soup_name).count name) ∧
    ((∃ c ∈ (split '\n' text).headD [], isJSWhitespace c = false) →
      ∀ name ∈ SUPPORTED_SOUPS,
        ((loadRecipes [] text).map Recipe.soup_name).count name
          = ((rowRecords (split '\n' text).tail).map Recipe.soup_name).count name) ∧
    ((((rowRecords (split '\n' (trim text)).tail).filter
        (fun r => decide (r.soup_name ∈ SUPPORTED_SOUPS))).map Recipe.soup_name).Nodup →
      ((loadRecipes [] text).map Recipe.soup_name).Nodup ∧ (loadRecipes [] text).length ≤ 5) := by
  have hperm : ((loadRecipes [] text).map Recipe.soup_name).Perm
      (((rowRecords (split '\n' (trim text)).tail).filter
        (fun r => decide (r.soup_name ∈ SUPPORTED_SOUPS))).map Recipe.soup_name) := by
    rw [loadRecipes_eq, List.nil_append]
    exact (jsSort_perm _ _).map _
  have hcount : ∀ name ∈ SUPPORTED_SOUPS,
      ((loadRecipes [] text).map Recipe.soup_name).count name
        = ((rowRecords (split '\n' (trim text)).tail).map Recipe.soup_name).count name :=
    fun name hname =>
      (hperm.countP_eq (fun a => a == name)).trans (count_names_filter _ hname)
  refine ⟨hcount, ?_, ?_⟩
  · intro h name hname
    rw [hcount name hname, rowRecords_tail_trim text h]
  · intro hnd
    have hnd2 : ((loadRecipes [] text).map Recipe.soup_name).Nodup := by
      rw [hperm.nodup_iff]
      exact hnd
    refine ⟨hnd2, ?_⟩
    have hsub : (loadRecipes [] text).map Recipe.soup_name ⊆ SUPPORTED_SOUPS := by
      intro a ha
      rw [List.mem_map] at ha
      obtain ⟨r, hr, rfl⟩ := ha
      exact (mem_loadRecipes_nil hr).1
    have := (hnd2.subperm hsub).length_le
    simpa [SUPPORTED_SOUPS] using this

/-- Witness for C5: an unrecognized name given twice and an allow-listed name
given once; no two valid rows with an allow-listed name share a name. -/
theorem catalog_name_count_witness :
    ((loadRecipes [] "h\nFoo,,,,,\nFoo,,,,,\nABC Soup,,,,,".toList).map
        Recipe.soup_name).Nodup ∧
    (loadRecipes [] "h\nFoo,,,,,\nFoo,,,,,\nABC Soup,,,,,".toList).length ≤ 5 :=
  (catalog_name_count "h\nFoo,,,,,\nFoo,,,,,\nABC Soup,,,,,".toList).2.2
    (by decide)

/-- Counterexample to C5 as stated: a valid row given twice appears twice in the
catalog, and six valid rows give a catalog of six entries. -/
theorem catalog_keeps_duplicates :
    (loadRecipes [] "h\nABC Soup,e,i,5,s,src\nABC Soup,e,i,5,s,src".toList).map Recipe.soup_name
      = ["ABC Soup".toList, "ABC Soup".toList] ∧
    (loadRecipes [] "h\nABC Soup,,,,,\nABC Soup,,,,,\nABC Soup,,,,,\nABC Soup,,,,,\nABC Soup,,,,,\nABC Soup,,,,,".toList).length
      = 6 := by
  decide

/-- C10 (as amended): `loadRecipes` keeps the prior catalog: the catalog after
the call is the stable sort of the prior catalog followed by the kept records of
the text, so it is a permutation of the prior catalog together with the catalog
built from the text alone, every prior record is still in it, and it is the
catalog built from the text alone when the prior catalog is empty. -/
theorem loadRecipes_appends (prior : List Recipe) (text : Str) :
    loadRecipes prior text = jsSort compareRecipes (prior ++
      (rowRecords (split '\n' (trim text)).tail).filter
        (fun r => decide (r.soup_name ∈ SUPPORTED_SOUPS))) ∧
    (loadRecipes prior text).Perm (prior ++ loadRecipes [] text) ∧
    (∀ r ∈ prior, r ∈ loadRecipes prior text) ∧
    (loadRecipes prior text).length = prior.length + (loadRecipes [] text).length ∧
    (prior = [] → loadRecipes prior text = loadRecipes [] text) := by
  have hperm : (loadRecipes prior text).Perm (prior ++ loadRecipes [] text) := by
    rw [loadRecipes_eq, loadRecipes_eq [] text, List.nil_append]
    exact (jsSort_perm _ _).trans ((jsSort_perm _ _).symm.append_left prior)
  refine ⟨loadRecipes_eq prior text, hperm, ?_, ?_, ?_⟩
  · intro r hr
    exact hperm.symm.subset (List.mem_append_left _ hr)
  · rw [hperm.length_eq, List.length_append]
  · rintro rfl
    rfl

/-- Witness for C10: a prior catalog of one record and a text with one valid
row; the prior record is in the catalog after the call. -/
theorem loadRecipes_appends_witness :
    sampleRecipe "Watercress Soup".toList [] [] ∈
      loadRecipes [sampleRecipe "Watercress Soup".toList [] []]
        "h\nABC Soup,e,i,5,s,src".toList :=
  (loadRecipes_appends [sampleRecipe "Watercress Soup".toList [] []]
    "h\nABC Soup,e,i,5,s,src".toList).2.2.1 _ (by decide)

/-- Counterexample to C10 as stated: with a prior catalog of one record and the
empty text the catalog after the call still holds the record, and building twice
from the same text gives two entries where building once gives one. -/
theorem loadRecipes_keeps_prior :
    loadRecipes [sampleRecipe "ABC Soup".toList [] []] []
      = [sampleRecipe "ABC Soup".toList [] []] ∧
    loadRecipes [] [] = [] ∧
    (loadRecipes (loadRecipes [] "h\nABC Soup,e,i,5,s,src".toList)
      "h\nABC Soup,e,i,5,s,src".toList).length = 2 ∧
    (loadRecipes [] "h\nABC Soup,e,i,5,s,src".toList).length = 1 := by
  decide

end EhCookWhat
